import Mathlib

/-!
# Shallow embedding of the transaction ledger and vault reconciliation model

This development embeds the core of the `AppProvider` module (the ledger
store holding the transaction list and the denomination vault) together
with its load-time sanitization/migration layer, and proves the stated
properties of the specification against it.

Conventions of the embedding:
* JavaScript objects mapping denominations to signed counts are modelled
  either as total functions `Denom → Int` (the vault: an absent key reads
  as 0, matching `v[d] || 0`) or as finite association lists
  `List (Denom × Int)` (a transaction's breakdown, whose key set is
  iterated by `for … in`).  JavaScript object keys are unique, so the
  `breakdown[denom]` lookup performed inside a `for … in` loop over
  `breakdown` is the iterated entry's own value.
* ISO date strings are modelled by their timestamps (`Nat`), since the
  code only ever compares them through `new Date(d).getTime()`.
* `Array.prototype.sort` with the comparator
  `(a, b) => new Date(b.date).getTime() - new Date(a.date).getTime()`
  is modelled by a stable sort with respect to `b.date ≤ a.date`.
* Fresh ids and the current time, produced by the clock and `Math.random`,
  are parameters of `addTransaction`.
* The currently authenticated user (read from storage at call time) is a
  parameter `u : Option String` of the operations; `none` models no
  logged-in user, in which case the visible list is empty.
-/

namespace Ali

abbrev Denom := Nat

/-- Modelled from the spec: the `DENOMINATIONS` constant lives in the
`constants` module, which is not part of the available sources.  The spec
fixes only that it is "a fixed, finite set of positive integer face values"
(a static configuration constant), and its examples use the face values
500, 100, 50 and 20; we take a concrete currency ladder containing them. -/
def DENOMINATIONS : List Denom := [500, 200, 100, 50, 20, 10]

/-- A transaction's `type` field: `'credit' | 'debit'`. -/
inductive TxType where
  | credit
  | debit
deriving DecidableEq

/-- A transaction's `paymentMethod` field: `'cash' | 'upi'`. -/
inductive PayMethod where
  | cash
  | upi
deriving DecidableEq

/-- The `Transaction` record. -/
structure Transaction where
  id : String
  date : Nat
  type : TxType
  paymentMethod : PayMethod
  amount : ℚ
  company : String
  person : String
  location : String
  recordedBy : String
  notes : String
  breakdown : List (Denom × Int)
deriving DecidableEq

/-- `Omit<Transaction, 'id' | 'date'>`: the caller-supplied payload of
`addTransaction`. -/
structure TxData where
  type : TxType
  paymentMethod : PayMethod
  amount : ℚ
  company : String
  person : String
  location : String
  recordedBy : String
  notes : String
  breakdown : List (Denom × Int)
deriving DecidableEq

/-- The vault: counts per denomination, absent keys reading as `0`. -/
abbrev Vault := Denom → Int

/-- `initializeVault`: every configured denomination is set to `0`; under
the total-function view this is the zero function. -/
def initializeVault : Vault := fun _ => 0

/-- The in-memory state owned by the provider: `allTransactions` and
`vault`. -/
structure LedgerState where
  allTransactions : List Transaction
  vault : Vault

/-- The empty initial state (`useState` initialisers). -/
def initialState : LedgerState :=
  { allTransactions := [], vault := initializeVault }

/-- The sign with which a transaction's breakdown enters the vault when
applied: credits add, debits subtract. -/
def txSign : TxType → Int
  | .credit => 1
  | .debit => -1

/-- The comparator used on every sort site:
`(a, b) => new Date(b.date).getTime() - new Date(a.date).getTime()`,
i.e. date descending. -/
def dateDesc (a b : Transaction) : Prop := b.date ≤ a.date

instance : DecidableRel dateDesc := fun a b => Nat.decLe b.date a.date

instance : IsTotal Transaction dateDesc :=
  ⟨fun a b => le_total b.date a.date⟩

instance : IsTrans Transaction dateDesc :=
  ⟨fun _ _ _ h1 h2 => le_trans h2 h1⟩

/-- `list.sort((a, b) => new Date(b.date).getTime() - new Date(a.date).getTime())`. -/
def sortByDateDesc (l : List Transaction) : List Transaction :=
  l.insertionSort dateDesc

/-- One step of the vault-update loop without a denomination filter
(`addTransaction` and `deleteTransactionsByIds` iterate every key of the
breakdown): `updatedVault[d] = (updatedVault[d] || 0) + sign * count`. -/
def applyBreakdown (sign : Int) (v : Vault) (bd : List (Denom × Int)) : Vault :=
  bd.foldl (fun acc p => Function.update acc p.1 (acc p.1 + sign * p.2)) v

/-- The vault-update loop of `updateTransaction`, which additionally checks
`DENOMINATIONS.includes(denom)` before touching the vault. -/
def applyBreakdownChecked (sign : Int) (v : Vault) (bd : List (Denom × Int)) : Vault :=
  bd.foldl
    (fun acc p =>
      if p.1 ∈ DENOMINATIONS then Function.update acc p.1 (acc p.1 + sign * p.2)
      else acc) v

/-- The transaction list filtered to the current user
(`allTransactions.filter(tx => tx.recordedBy === currentUserName)`);
with no logged-in user every transaction is filtered out. -/
def visibleList (s : LedgerState) (u : Option String) : List Transaction :=
  s.allTransactions.filter fun tx =>
    match u with
    | none => false
    | some n => decide (tx.recordedBy = n)

/-- `addTransaction`: build the new record from the payload plus a fresh id
and the current time, append and re-sort the list, and, for cash
transactions, apply the breakdown to the vault with the sign of the type
(no clamping). -/
def addTransaction (s : LedgerState) (data : TxData) (freshId : String)
    (now : Nat) : LedgerState :=
  let newTx : Transaction :=
    { id := freshId, date := now, type := data.type
      paymentMethod := data.paymentMethod, amount := data.amount
      company := data.company, person := data.person
      location := data.location, recordedBy := data.recordedBy
      notes := data.notes, breakdown := data.breakdown }
  { allTransactions := sortByDateDesc (s.allTransactions ++ [newTx])
    vault :=
      if newTx.paymentMethod = .cash then
        applyBreakdown (txSign newTx.type) s.vault newTx.breakdown
      else s.vault }

/-- The list-replace step of `updateTransaction`:
`prevTransactions.map(tx => tx.id === updatedTransaction.id ? updatedTransaction : tx)`. -/
def replaceById (t : Transaction) (l : List Transaction) : List Transaction :=
  l.map fun tx => if tx.id = t.id then t else tx

/-- `updateTransaction`: look the original up by id in the *user-filtered*
list; if absent the vault is untouched (an error is logged); otherwise
revert the original's vault impact and apply the new record's, both runs
checking `DENOMINATIONS.includes`.  Independently, replace the record by id
in the *unfiltered* list and re-sort. -/
def updateTransaction (s : LedgerState) (u : Option String)
    (t : Transaction) : LedgerState :=
  { allTransactions := sortByDateDesc (replaceById t s.allTransactions)
    vault :=
      match (visibleList s u).find? (fun tx => decide (tx.id = t.id)) with
      | none => s.vault
      | some orig =>
        let v1 :=
          if orig.paymentMethod = .cash then
            applyBreakdownChecked (-txSign orig.type) s.vault orig.breakdown
          else s.vault
        if t.paymentMethod = .cash then
          applyBreakdownChecked (txSign t.type) v1 t.breakdown
        else v1 }

/-- Whether `updateTransaction` takes its `console.error` branch ("Original
transaction not found for vault update."): the id is absent from the
user-filtered list. -/
def updateLogsError (s : LedgerState) (u : Option String)
    (t : Transaction) : Bool :=
  ((visibleList s u).find? (fun tx => decide (tx.id = t.id))).isNone

/-- The vault loop of `deleteTransactionsByIds`: revert each cash
transaction's breakdown (credit removed, debit added back; no denomination
filter). -/
def revertAll (txs : List Transaction) (v : Vault) : Vault :=
  txs.foldl
    (fun acc tx =>
      if tx.paymentMethod = .cash then
        applyBreakdown (-txSign tx.type) acc tx.breakdown
      else acc)
    v

/-- `deleteTransactionsByIds`: revert the vault impact of every *visible*
transaction whose id is listed (cash only, full breakdown, no denomination
filter), then drop every listed id from the *unfiltered* list. -/
def deleteTransactionsByIds (s : LedgerState) (u : Option String)
    (ids : List String) : LedgerState :=
  let toDelete := (visibleList s u).filter fun tx => decide (tx.id ∈ ids)
  { allTransactions :=
      s.allTransactions.filter fun tx => !decide (tx.id ∈ ids)
    vault := revertAll toDelete s.vault }

/-! ## Sanitization / migration layer (the load effect)

Raw persisted values after `JSON.parse` are modelled just finely enough to
express every check the code performs on them: a raw field is either a
finite number, a non-finite number (`NaN`/`±Infinity`: `typeof` is
`'number'` but `isFinite` fails), a string, `undefined` (absent key), or
some other value. -/

/-- A raw JSON field value, at the granularity of the checks
`typeof x === 'number'`, `isFinite(x)`, `typeof x === 'string'`. -/
inductive RawVal where
  | num (x : ℚ)
  | nonfinite
  | str (s : String)
  | undefined
  | other
deriving DecidableEq

/-- A raw persisted transaction entry that is a structured object (a
non-object entry is modelled by `RawTx.notObj` below being absent — see
`RawEntry`).  `date` is `some ts` when `tx.date` is truthy and parses to a
valid timestamp, `none` otherwise.  `breakdown` is `some f` when
`tx.breakdown` is a truthy object, `none` otherwise. -/
structure RawTx where
  id : RawVal
  type : RawVal
  paymentMethod : RawVal
  amount : RawVal
  date : Option Nat
  location : RawVal
  company : RawVal
  person : RawVal
  recordedBy : RawVal
  notes : RawVal
  breakdown : Option (Denom → RawVal)

/-- A raw entry of the persisted transaction array: either a structured
object or something falsy / non-object (discarded by the first guard). -/
inductive RawEntry where
  | obj (tx : RawTx)
  | notObj

/-- The breakdown sanitization loop: for each configured denomination,
keep the raw count only when it is a finite number `≥ 0`, floored to an
integer; otherwise the key is omitted (not zeroed). -/
def sanitizeBreakdown (raw : Denom → RawVal) : List (Denom × Int) :=
  DENOMINATIONS.foldl
    (fun acc d =>
      match raw d with
      | .num x => if 0 ≤ x then acc ++ [(d, ⌊x⌋)] else acc
      | _ => acc)
    []

/-- Per-entry transaction migration: entries without a truthy string `id`
are discarded (`none`); every other field is defaulted when missing or of
the wrong type, and the breakdown is sanitized (kept only for cash
transactions with an object breakdown). -/
def migrateTx (now : Nat) : RawEntry → Option Transaction
  | .notObj => none
  | .obj tx =>
    match tx.id with
    | .str i =>
      if i = "" then none
      else
        let pm : PayMethod :=
          match tx.paymentMethod with
          | .str "cash" => .cash
          | .str "upi" => .upi
          | _ => .cash
        some
          { id := i
            type :=
              match tx.type with
              | .str "credit" => .credit
              | .str "debit" => .debit
              | _ => .credit
            paymentMethod := pm
            amount := match tx.amount with | .num x => x | _ => 0
            date := tx.date.getD now
            location := match tx.location with | .str s => s | _ => "NA"
            company := match tx.company with | .str s => s | _ => "NA"
            person := match tx.person with | .str s => s | _ => ""
            recordedBy := match tx.recordedBy with | .str s => s | _ => "system"
            notes := match tx.notes with | .str s => s | _ => ""
            breakdown :=
              match pm, tx.breakdown with
              | .cash, some raw => sanitizeBreakdown raw
              | _, _ => [] }
    | _ => none

/-- The parsed transactions blob: an array of raw entries, or any non-array
value (which leaves the migrated list empty). -/
inductive ParsedTxBlob where
  | arr (l : List RawEntry)
  | notArr

/-- The parsed vault blob: a non-null, non-array structured object (a raw
count per key), or anything else (which falls back to a fresh vault). -/
inductive ParsedVaultBlob where
  | obj (raw : Denom → RawVal)
  | notObj

/-- A persisted blob as seen by the load effect: the key can be absent
(`localStorage.getItem` returned `null`), present but failing to parse
(`JSON.parse` throws), or present and parsed. -/
inductive Blob (α : Type) where
  | absent
  | throws
  | ok (v : α)

/-- The vault sanitization loop: starting from a fresh vault, each
configured denomination's raw count is kept when it is a finite number
`≥ 0`, floored to an integer, else left at `0`; keys outside the
configured set are ignored. -/
def sanitizeVault (raw : Denom → RawVal) : Vault := fun d =>
  if d ∈ DENOMINATIONS then
    match raw d with
    | .num x => if 0 ≤ x then ⌊x⌋ else 0
    | _ => 0
  else 0

/-- The outcome of the load effect: the seeded state plus whether each of
the two persisted keys was removed. -/
structure LoadResult where
  transactions : List Transaction
  vault : Vault
  txKeyCleared : Bool
  vaultKeyCleared : Bool

/-- The body of the load effect's `try` block: parse and migrate the
transactions blob first (a parse throw aborts the whole body), then parse
and sanitize the vault blob likewise. -/
def loadBody (now : Nat) (txB : Blob ParsedTxBlob)
    (vB : Blob ParsedVaultBlob) : Except Unit LoadResult :=
  match txB with
  | .throws => .error ()
  | .absent =>
    loadVault []
  | .ok .notArr =>
    loadVault []
  | .ok (.arr l) =>
    loadVault (sortByDateDesc (l.filterMap (migrateTx now)))
where
  loadVault (txs : List Transaction) : Except Unit LoadResult :=
    match vB with
    | .throws => .error ()
    | .absent =>
      .ok { transactions := txs, vault := initializeVault
            txKeyCleared := false, vaultKeyCleared := false }
    | .ok .notObj =>
      .ok { transactions := txs, vault := initializeVault
            txKeyCleared := false, vaultKeyCleared := false }
    | .ok (.obj raw) =>
      .ok { transactions := txs, vault := sanitizeVault raw
            txKeyCleared := false, vaultKeyCleared := false }

/-- The `catch` branch of the load effect: both keys are removed and both
stores reset to empty/zero. -/
def resetResult : LoadResult :=
  { transactions := [], vault := initializeVault
    txKeyCleared := true, vaultKeyCleared := true }

/-- The whole load effect: the `try` body with the full-reset `catch`.
It is a total function — no exception escapes the load boundary. -/
def loadEffect (now : Nat) (txB : Blob ParsedTxBlob)
    (vB : Blob ParsedVaultBlob) : LoadResult :=
  match loadBody now txB vB with
  | .ok r => r
  | .error _ => resetResult

/-- The ledger state seeded from a load outcome. -/
def loadState (r : LoadResult) : LedgerState :=
  { allTransactions := r.transactions, vault := r.vault }

/-- Re-reading a persisted vault through the sanitization layer.  A
reachable vault serializes each denomination to its (finite) numeric
count, so the raw value read back for `d` is `RawVal.num (v d)`. -/
def reloadVault (v : Vault) : Vault :=
  sanitizeVault fun d => .num (v d)

/-! ## Derived quantities and basic lemmas -/

/-- The total count a breakdown carries for denomination `d` (a JavaScript
object has at most one entry per key, but the sum is what the update loops
accumulate in general). -/
def bdCount (bd : List (Denom × Int)) (d : Denom) : Int :=
  ((bd.filter fun p => decide (p.1 = d)).map Prod.snd).sum

/-- The signed vault effect of a single transaction at denomination `d`:
`± breakdown` for cash, nothing otherwise. -/
def txEffect (tx : Transaction) (d : Denom) : Int :=
  if tx.paymentMethod = .cash then txSign tx.type * bdCount tx.breakdown d
  else 0

/-- The signed sum, over a list of transactions, of their vault effects at
denomination `d`. -/
def signedSum (txs : List Transaction) (d : Denom) : Int :=
  (txs.map fun tx => txEffect tx d).sum

/-! ## Reachability -/

/-- States reachable through the provider: seeded by the load effect and
then mutated only through the three exposed operations, with arbitrary
parameters. -/
inductive Reachable : LedgerState → Prop where
  | load (now : Nat) (txB : Blob ParsedTxBlob) (vB : Blob ParsedVaultBlob) :
      Reachable (loadState (loadEffect now txB vB))
  | add (s : LedgerState) (data : TxData) (freshId : String) (now : Nat) :
      Reachable s → Reachable (addTransaction s data freshId now)
  | update (s : LedgerState) (u : Option String) (t : Transaction) :
      Reachable s → Reachable (updateTransaction s u t)
  | delete (s : LedgerState) (u : Option String) (ids : List String) :
      Reachable s → Reachable (deleteTransactionsByIds s u ids)

/-- States reachable from the empty state through sequences of calls all
made on behalf of one logged-in user `u` who owns every record: added
transactions carry `recordedBy = u` and a fresh id (the generated
`txn_<time>_<random>` ids never collide), and updates install records
recorded by `u`. -/
inductive ReachableOwned (u : String) : LedgerState → Prop where
  | init : ReachableOwned u initialState
  | add (s : LedgerState) (data : TxData) (freshId : String) (now : Nat) :
      ReachableOwned u s → data.recordedBy = u →
      (∀ tx ∈ s.allTransactions, tx.id ≠ freshId) →
      ReachableOwned u (addTransaction s data freshId now)
  | update (s : LedgerState) (t : Transaction) :
      ReachableOwned u s → t.recordedBy = u →
      ReachableOwned u (updateTransaction s (some u) t)
  | delete (s : LedgerState) (ids : List String) :
      ReachableOwned u s →
      ReachableOwned u (deleteTransactionsByIds s (some u) ids)

/-- The inductive invariant for the vault-reconciliation property: every
stored record is owned by `u`, ids are pairwise distinct, and the vault
agrees with the signed sum of the cash breakdowns at every configured
denomination. -/
def OwnedInv (u : String) (s : LedgerState) : Prop :=
  (∀ tx ∈ s.allTransactions, tx.recordedBy = u) ∧
  (s.allTransactions.map Transaction.id).Nodup ∧
  ∀ d ∈ DENOMINATIONS, s.vault d = signedSum s.allTransactions d

/-! ## Concrete inputs used by the end-to-end statements -/

/-- A cash payload with the given type, owner and breakdown. -/
def cashData (t : TxType) (who : String) (bd : List (Denom × Int)) : TxData :=
  { type := t, paymentMethod := .cash, amount := 500, company := "NA"
    person := "", location := "NA", recordedBy := who, notes := ""
    breakdown := bd }

/-- End-to-end sequence: credit cash `{500: 1}`. -/
def endState1 : LedgerState :=
  addTransaction initialState (cashData .credit "u" [(500, 1)]) "a" 1

/-- … then debit cash `{500: 1}`. -/
def endState2 : LedgerState :=
  addTransaction endState1 (cashData .debit "u" [(500, 1)]) "b" 2

/-- … then another debit cash `{500: 1}`. -/
def endState3 : LedgerState :=
  addTransaction endState2 (cashData .debit "u" [(500, 1)]) "c" 3

/-- A state holding one cash credit recorded by another user, from which
the current user "u" deletes that transaction by id. -/
def crossUserDeleteState : LedgerState :=
  deleteTransactionsByIds
    (addTransaction initialState (cashData .credit "other" [(500, 1)]) "a" 1)
    (some "u") ["a"]

/-- A concrete stored cash transaction (owner "u", id "a", date 5). -/
def storedTx : Transaction :=
  { id := "a", date := 5, type := .credit, paymentMethod := .cash
    amount := 500, company := "NA", person := "", location := "NA"
    recordedBy := "u", notes := "", breakdown := [(500, 1)] }

/-- A one-transaction ledger state owned by "u". -/
def oneTxState : LedgerState :=
  { allTransactions := [storedTx], vault := fun d => if d = 500 then 1 else 0 }

/-- The stored transaction with only its `date` changed (an update payload
that does not carry the stored date). -/
def movedDateTx : Transaction :=
  { storedTx with date := 99 }

/-- A stored transaction owned by somebody else than the current user. -/
def foreignTx : Transaction :=
  { storedTx with recordedBy := "other" }

/-- A one-transaction state whose only record belongs to another user. -/
def foreignTxState : LedgerState :=
  { allTransactions := [foreignTx], vault := fun d => if d = 500 then 1 else 0 }

/-- An update payload for id "a" issued by the current user "u". -/
def updatePayload : Transaction :=
  { storedTx with person := "p", breakdown := [(500, 1)] }

/-- The raw breakdown `{100: -5, 50: "x", 20: 3.7}` of the sanitization
example. -/
def rawMixedBreakdown : Denom → RawVal := fun d =>
  if d = 100 then .num (-5)
  else if d = 50 then .str "x"
  else if d = 20 then .num (37 / 10)
  else .undefined

/-- A persisted cash transaction entry carrying `rawMixedBreakdown`. -/
def rawMixedTx : RawTx :=
  { id := .str "t1", type := .str "credit", paymentMethod := .str "cash"
    amount := .num 500, date := some 7, location := .undefined
    company := .undefined, person := .undefined, recordedBy := .str "u"
    notes := .undefined, breakdown := some rawMixedBreakdown }

/-- A vault with a negative count on denomination 500. -/
def negVault : Vault := fun d => if d = 500 then -1 else 0

/-! ## Lemmas -/

lemma bdCount_cons (p : Denom × Int) (bd : List (Denom × Int)) (d : Denom) :
    bdCount (p :: bd) d = (if p.1 = d then p.2 else 0) + bdCount bd d := by
  by_cases h : p.1 = d <;> simp [bdCount, List.filter_cons, h]

lemma applyBreakdown_apply (sign : Int) (v : Vault) (bd : List (Denom × Int))
    (d : Denom) :
    applyBreakdown sign v bd d = v d + sign * bdCount bd d := by
  induction bd generalizing v with
  | nil => simp [applyBreakdown, bdCount]
  | cons p bd ih =>
    have h0 : applyBreakdown sign v (p :: bd) =
        applyBreakdown sign (Function.update v p.1 (v p.1 + sign * p.2)) bd := rfl
    rw [h0, ih, bdCount_cons]
    by_cases h : p.1 = d
    · rw [if_pos h]; subst h; rw [Function.update_same]; ring
    · rw [if_neg h, Function.update_noteq (Ne.symm h)]; ring

lemma applyBreakdownChecked_apply (sign : Int) (v : Vault)
    (bd : List (Denom × Int)) (d : Denom) (hd : d ∈ DENOMINATIONS) :
    applyBreakdownChecked sign v bd d = v d + sign * bdCount bd d := by
  induction bd generalizing v with
  | nil => simp [applyBreakdownChecked, bdCount]
  | cons p bd ih =>
    by_cases hmem : p.1 ∈ DENOMINATIONS
    · have h0 : applyBreakdownChecked sign v (p :: bd) =
          applyBreakdownChecked sign
            (Function.update v p.1 (v p.1 + sign * p.2)) bd := by
        simp [applyBreakdownChecked, hmem]
      rw [h0, ih, bdCount_cons]
      by_cases h : p.1 = d
      · rw [if_pos h]; subst h; rw [Function.update_same]; ring
      · rw [if_neg h, Function.update_noteq (Ne.symm h)]; ring
    · have h0 : applyBreakdownChecked sign v (p :: bd) =
          applyBreakdownChecked sign v bd := by
        simp [applyBreakdownChecked, hmem]
      have h : p.1 ≠ d := fun he => hmem (he ▸ hd)
      rw [h0, ih, bdCount_cons, if_neg h]
      ring

lemma revertAll_apply (txs : List Transaction) (v : Vault) (d : Denom) :
    revertAll txs v d = v d - signedSum txs d := by
  induction txs generalizing v with
  | nil => simp [revertAll, signedSum]
  | cons tx txs ih =>
    have h0 : revertAll (tx :: txs) v =
        revertAll txs
          (if tx.paymentMethod = .cash then
            applyBreakdown (-txSign tx.type) v tx.breakdown
          else v) := rfl
    rw [h0, ih]
    by_cases h : tx.paymentMethod = .cash
    · rw [if_pos h, applyBreakdown_apply]
      simp [signedSum, txEffect, h]; ring
    · rw [if_neg h]
      simp [signedSum, txEffect, h]

lemma signedSum_perm {l1 l2 : List Transaction} (h : l1.Perm l2) (d : Denom) :
    signedSum l1 d = signedSum l2 d :=
  (h.map fun tx => txEffect tx d).sum_eq

lemma sortByDateDesc_perm (l : List Transaction) :
    (sortByDateDesc l).Perm l :=
  List.perm_insertionSort dateDesc l

lemma signedSum_append (l1 l2 : List Transaction) (d : Denom) :
    signedSum (l1 ++ l2) d = signedSum l1 d + signedSum l2 d := by
  simp [signedSum]

lemma signedSum_filter_split (p : Transaction → Bool) (l : List Transaction)
    (d : Denom) :
    signedSum l d =
      signedSum (l.filter p) d + signedSum (l.filter fun a => !p a) d := by
  induction l with
  | nil => simp [signedSum]
  | cons a l ih =>
    by_cases h : p a <;>
      simp only [signedSum, List.filter_cons, h, List.map_cons, List.sum_cons,
        Bool.not_true, Bool.not_false, if_pos, if_neg, Bool.false_eq_true,
        ite_true, ite_false, List.map, signedSum] at * <;> omega

lemma find?_id_of_nodup (l : List Transaction) (tx : Transaction)
    (hnd : (l.map Transaction.id).Nodup) (htx : tx ∈ l) :
    l.find? (fun a => decide (a.id = tx.id)) = some tx := by
  induction l with
  | nil => cases htx
  | cons hd tl ih =>
    rw [List.map_cons, List.nodup_cons] at hnd
    by_cases h : hd.id = tx.id
    · have he : tx = hd := by
        rcases List.mem_cons.mp htx with h1 | h1
        · exact h1
        · exact absurd (h ▸ List.mem_map_of_mem Transaction.id h1) hnd.1
      subst he
      simp [List.find?_cons, h]
    · have h1 : tx ∈ tl := by
        rcases List.mem_cons.mp htx with h1 | h1
        · exact absurd (h1 ▸ rfl) h
        · exact h1
      rw [List.find?_cons]
      simp only [h, decide_False]
      exact ih hnd.2 h1

lemma filter_id_singleton_of_nodup (l : List Transaction) (tx : Transaction)
    (hnd : (l.map Transaction.id).Nodup) (htx : tx ∈ l)
    (p : Transaction → Bool) (hp : ∀ a, p a = true ↔ a.id = tx.id) :
    l.filter p = [tx] := by
  induction l with
  | nil => cases htx
  | cons hd tl ih =>
    rw [List.map_cons, List.nodup_cons] at hnd
    by_cases h : hd.id = tx.id
    · have he : tx = hd := by
        rcases List.mem_cons.mp htx with h1 | h1
        · exact h1
        · exact absurd (h ▸ List.mem_map_of_mem Transaction.id h1) hnd.1
      subst he
      have hnil : tl.filter p = [] := by
        rw [List.filter_eq_nil_iff]
        intro a ha hpa
        exact hnd.1 (((hp a).1 hpa) ▸ List.mem_map_of_mem Transaction.id ha)
      rw [List.filter_cons, if_pos ((hp tx).2 h), hnil]
    · have h1 : tx ∈ tl := by
        rcases List.mem_cons.mp htx with h1 | h1
        · exact absurd (h1 ▸ rfl) h
        · exact h1
      rw [List.filter_cons, if_neg (by simp [hp, h])]
      exact ih hnd.2 h1

lemma replaceById_map_id (t : Transaction) (l : List Transaction) :
    (replaceById t l).map Transaction.id = l.map Transaction.id := by
  rw [replaceById, List.map_map]
  apply List.map_congr_left
  intro a _
  by_cases h : a.id = t.id <;> simp [h]

lemma replaceById_of_not_mem (t : Transaction) (l : List Transaction)
    (h : ∀ a ∈ l, a.id ≠ t.id) : replaceById t l = l := by
  rw [replaceById]
  have h2 : ∀ a ∈ l, (if a.id = t.id then t else a) = a := fun a ha => by
    rw [if_neg (h a ha)]
  rw [List.map_congr_left h2]
  exact List.map_id l

lemma signedSum_replaceById (t : Transaction) (l : List Transaction)
    (orig : Transaction) (hnd : (l.map Transaction.id).Nodup)
    (hfind : l.find? (fun a => decide (a.id = t.id)) = some orig) (d : Denom) :
    signedSum (replaceById t l) d =
      signedSum l d - txEffect orig d + txEffect t d := by
  induction l with
  | nil => simp at hfind
  | cons hd tl ih =>
    rw [List.map_cons, List.nodup_cons] at hnd
    rw [List.find?_cons] at hfind
    by_cases h : hd.id = t.id
    · simp only [h, decide_True] at hfind
      have horig : orig = hd := by
        injection hfind with h1; exact h1.symm
      subst horig
      have hne : ∀ a ∈ tl, a.id ≠ t.id := by
        intro a ha he
        exact hnd.1 ((h.trans he.symm) ▸ List.mem_map_of_mem Transaction.id ha)
      have hrepl : replaceById t (orig :: tl) = t :: tl := by
        rw [replaceById, List.map_cons, if_pos h,
          show (List.map (fun tx => if tx.id = t.id then t else tx) tl) =
            replaceById t tl from rfl,
          replaceById_of_not_mem t tl hne]
      rw [hrepl]
      simp [signedSum]
      ring
    · simp only [h, decide_False] at hfind
      have hrepl : replaceById t (hd :: tl) = hd :: replaceById t tl := by
        rw [replaceById, List.map_cons, if_neg h]; rfl
      rw [hrepl]
      have := ih hnd.2 hfind
      simp only [signedSum, List.map_cons, List.sum_cons] at this ⊢
      omega

lemma visibleList_eq_of_owned (s : LedgerState) (u : String)
    (h : ∀ tx ∈ s.allTransactions, tx.recordedBy = u) :
    visibleList s (some u) = s.allTransactions := by
  rw [visibleList, List.filter_eq_self]
  intro a ha
  simp [h a ha]


lemma ownedInv_of_reachableOwned (u : String) (s : LedgerState)
    (h : ReachableOwned u s) : OwnedInv u s := by
  induction h with
  | init =>
    refine ⟨by simp [initialState], by simp [initialState], ?_⟩
    intro d _
    simp [initialState, initializeVault, signedSum]
  | add s data freshId now _ hrec hfresh ih =>
    obtain ⟨ihOwn, ihNd, ihVault⟩ := ih
    have hperm :
        (addTransaction s data freshId now).allTransactions.Perm
          (s.allTransactions ++
            [{ id := freshId, date := now, type := data.type
               paymentMethod := data.paymentMethod, amount := data.amount
               company := data.company, person := data.person
               location := data.location, recordedBy := data.recordedBy
               notes := data.notes, breakdown := data.breakdown }]) :=
      sortByDateDesc_perm _
    refine ⟨?_, ?_, ?_⟩
    · intro tx htx
      rcases List.mem_append.mp (hperm.mem_iff.mp htx) with h1 | h1
      · exact ihOwn tx h1
      · rcases List.mem_singleton.mp h1 with rfl
        exact hrec
    · rw [(hperm.map Transaction.id).nodup_iff]
      rw [List.map_append]
      simp only [List.map_cons, List.map_nil]
      rw [List.nodup_append]
      refine ⟨ihNd, List.nodup_singleton _, ?_⟩
      intro a ha hb
      rcases List.mem_singleton.mp hb with rfl
      rcases List.mem_map.mp ha with ⟨tx, htx, hid⟩
      exact hfresh tx htx hid
    · intro d hd
      have hsum :
          signedSum (addTransaction s data freshId now).allTransactions d =
            signedSum s.allTransactions d +
              txEffect { id := freshId, date := now, type := data.type
                         paymentMethod := data.paymentMethod
                         amount := data.amount, company := data.company
                         person := data.person, location := data.location
                         recordedBy := data.recordedBy, notes := data.notes
                         breakdown := data.breakdown } d := by
        rw [signedSum_perm hperm, signedSum_append]
        simp [signedSum]
      rw [hsum, ← ihVault d hd]
      by_cases hc : data.paymentMethod = PayMethod.cash
      · have hv : (addTransaction s data freshId now).vault =
            applyBreakdown (txSign data.type) s.vault data.breakdown := by
          simp [addTransaction, hc]
        rw [hv, applyBreakdown_apply]
        simp [txEffect, hc]
      · have hv : (addTransaction s data freshId now).vault = s.vault := by
          simp [addTransaction, hc]
        rw [hv]
        simp [txEffect, hc]
  | update s t _ hrec ih =>
    obtain ⟨ihOwn, ihNd, ihVault⟩ := ih
    have hvis : visibleList s (some u) = s.allTransactions :=
      visibleList_eq_of_owned s u ihOwn
    have hperm :
        (updateTransaction s (some u) t).allTransactions.Perm
          (replaceById t s.allTransactions) := sortByDateDesc_perm _
    have hown : ∀ tx ∈ (updateTransaction s (some u) t).allTransactions,
        tx.recordedBy = u := by
      intro tx htx
      have := hperm.mem_iff.mp htx
      rcases List.mem_map.mp this with ⟨a, ha, hfa⟩
      by_cases h : a.id = t.id
      · rw [if_pos h] at hfa
        rw [← hfa]; exact hrec
      · rw [if_neg h] at hfa
        rw [← hfa]; exact ihOwn a ha
    have hnd : ((updateTransaction s (some u) t).allTransactions.map
        Transaction.id).Nodup := by
      rw [(hperm.map Transaction.id).nodup_iff, replaceById_map_id]
      exact ihNd
    refine ⟨hown, hnd, ?_⟩
    intro d hd
    rw [signedSum_perm hperm]
    cases hfind : s.allTransactions.find? (fun a => decide (a.id = t.id)) with
    | none =>
      have hne : ∀ a ∈ s.allTransactions, a.id ≠ t.id := by
        intro a ha
        have := List.find?_eq_none.mp hfind a ha
        simpa using this
      rw [replaceById_of_not_mem t _ hne]
      have hv : (updateTransaction s (some u) t).vault = s.vault := by
        simp only [updateTransaction, hvis, hfind]
      rw [hv]
      exact ihVault d hd
    | some orig =>
      rw [signedSum_replaceById t _ orig ihNd hfind d]
      have hv : (updateTransaction s (some u) t).vault =
          (if t.paymentMethod = PayMethod.cash then
            applyBreakdownChecked (txSign t.type)
              (if orig.paymentMethod = PayMethod.cash then
                applyBreakdownChecked (-txSign orig.type) s.vault
                  orig.breakdown
              else s.vault) t.breakdown
          else
            (if orig.paymentMethod = PayMethod.cash then
              applyBreakdownChecked (-txSign orig.type) s.vault orig.breakdown
            else s.vault)) := by
        simp only [updateTransaction, hvis, hfind]
      have hv1 : ∀ w : Vault,
          (if orig.paymentMethod = PayMethod.cash then
            applyBreakdownChecked (-txSign orig.type) w orig.breakdown
          else w) d = w d - txEffect orig d := by
        intro w
        by_cases hc : orig.paymentMethod = PayMethod.cash
        · rw [if_pos hc, applyBreakdownChecked_apply _ _ _ _ hd]
          simp [txEffect, hc]; ring
        · rw [if_neg hc]; simp [txEffect, hc]
      have hv2 : (updateTransaction s (some u) t).vault d =
          s.vault d - txEffect orig d + txEffect t d := by
        rw [hv]
        by_cases hc : t.paymentMethod = PayMethod.cash
        · rw [if_pos hc, applyBreakdownChecked_apply _ _ _ _ hd, hv1]
          simp [txEffect, hc]
        · rw [if_neg hc, hv1]
          simp [txEffect, hc]
      rw [hv2, ihVault d hd]
  | delete s ids _ ih =>
    obtain ⟨ihOwn, ihNd, ihVault⟩ := ih
    have hvis : visibleList s (some u) = s.allTransactions :=
      visibleList_eq_of_owned s u ihOwn
    have hsub : (deleteTransactionsByIds s (some u) ids).allTransactions.Sublist
        s.allTransactions := List.filter_sublist _
    refine ⟨?_, ?_, ?_⟩
    · intro tx htx
      exact ihOwn tx (hsub.mem htx)
    · exact List.Nodup.sublist (hsub.map Transaction.id) ihNd
    · intro d hd
      have hv : (deleteTransactionsByIds s (some u) ids).vault d =
          s.vault d -
            signedSum (s.allTransactions.filter fun tx =>
              decide (tx.id ∈ ids)) d := by
        simp only [deleteTransactionsByIds, hvis]
        rw [revertAll_apply]
      rw [hv, ihVault d hd,
        signedSum_filter_split (fun tx => decide (tx.id ∈ ids))
          s.allTransactions d]
      have hl : (deleteTransactionsByIds s (some u) ids).allTransactions =
          s.allTransactions.filter fun tx => !decide (tx.id ∈ ids) := rfl
      rw [hl]
      ring

lemma applyBreakdownChecked_notmem (sign : Int) (v : Vault)
    (bd : List (Denom × Int)) (d : Denom) (hd : d ∉ DENOMINATIONS) :
    applyBreakdownChecked sign v bd d = v d := by
  induction bd generalizing v with
  | nil => rfl
  | cons p bd ih =>
    by_cases hmem : p.1 ∈ DENOMINATIONS
    · have h0 : applyBreakdownChecked sign v (p :: bd) =
          applyBreakdownChecked sign
            (Function.update v p.1 (v p.1 + sign * p.2)) bd := by
        simp [applyBreakdownChecked, hmem]
      have h : p.1 ≠ d := fun he => hd (he ▸ hmem)
      rw [h0, ih, Function.update_noteq (Ne.symm h)]
    · have h0 : applyBreakdownChecked sign v (p :: bd) =
          applyBreakdownChecked sign v bd := by
        simp [applyBreakdownChecked, hmem]
      rw [h0, ih]

lemma addTransaction_vault_apply (s : LedgerState) (data : TxData)
    (freshId : String) (now : Nat) (d : Denom) :
    (addTransaction s data freshId now).vault d =
      s.vault d +
        (if data.paymentMethod = PayMethod.cash then
          txSign data.type * bdCount data.breakdown d
        else 0) := by
  by_cases hc : data.paymentMethod = PayMethod.cash <;>
    simp [addTransaction, hc, applyBreakdown_apply]

/-- The per-denomination selector corresponding to one pass of the
breakdown sanitization loop. -/
lemma sanitizeBreakdown_eq_filterMap (raw : Denom → RawVal) :
    sanitizeBreakdown raw =
      DENOMINATIONS.filterMap fun d =>
        match raw d with
        | .num x => if 0 ≤ x then some (d, ⌊x⌋) else none
        | _ => none := by
  have key : ∀ (l : List Denom) (acc : List (Denom × Int)),
      l.foldl
        (fun acc d =>
          match raw d with
          | .num x => if 0 ≤ x then acc ++ [(d, ⌊x⌋)] else acc
          | _ => acc)
        acc =
      acc ++ l.filterMap fun d =>
        match raw d with
        | .num x => if 0 ≤ x then some (d, ⌊x⌋) else none
        | _ => none := by
    intro l
    induction l with
    | nil => intro acc; simp
    | cons d l ih =>
      intro acc
      rw [List.foldl_cons, List.filterMap_cons, ih]
      cases hr : raw d with
      | num x =>
        by_cases hx : 0 ≤ x
        · simp [hr, hx]
        · simp [hr, hx]
      | nonfinite => simp [hr]
      | str s => simp [hr]
      | undefined => simp [hr]
      | other => simp [hr]
  rw [sanitizeBreakdown, key]
  rfl

lemma mem_sanitizeBreakdown (raw : Denom → RawVal) (d : Denom) (c : Int) :
    (d, c) ∈ sanitizeBreakdown raw ↔
      d ∈ DENOMINATIONS ∧ ∃ x : ℚ, raw d = .num x ∧ 0 ≤ x ∧ c = ⌊x⌋ := by
  rw [sanitizeBreakdown_eq_filterMap, List.mem_filterMap]
  constructor
  · rintro ⟨a, ha, hg⟩
    cases hr : raw a with
    | num x =>
      rw [hr] at hg
      by_cases hx : 0 ≤ x
      · simp only [hx, if_true] at hg
        obtain ⟨rfl, rfl⟩ := Prod.mk.injEq .. ▸ Option.some.inj hg
        exact ⟨ha, x, hr, hx, rfl⟩
      · simp [hx] at hg
    | nonfinite => rw [hr] at hg; simp at hg
    | str s => rw [hr] at hg; simp at hg
    | undefined => rw [hr] at hg; simp at hg
    | other => rw [hr] at hg; simp at hg
  · rintro ⟨hd, x, hx, hx0, rfl⟩
    exact ⟨d, hd, by simp [hx, hx0]⟩

lemma sorted_sortByDateDesc (l : List Transaction) :
    (sortByDateDesc l).Sorted dateDesc :=
  List.sorted_insertionSort dateDesc l

lemma allSorted_of_reachable (s : LedgerState) (h : Reachable s) :
    s.allTransactions.Sorted dateDesc := by
  induction h with
  | load now txB vB =>
    cases txB with
    | throws => exact List.sorted_nil
    | absent =>
      cases vB with
      | throws => exact List.sorted_nil
      | absent => exact List.sorted_nil
      | ok v => cases v <;> exact List.sorted_nil
    | ok p =>
      cases p with
      | notArr =>
        cases vB with
        | throws => exact List.sorted_nil
        | absent => exact List.sorted_nil
        | ok v => cases v <;> exact List.sorted_nil
      | arr l =>
        cases vB with
        | throws => exact List.sorted_nil
        | absent => exact sorted_sortByDateDesc _
        | ok v => cases v <;> exact sorted_sortByDateDesc _
  | add s data freshId now _ _ => exact sorted_sortByDateDesc _
  | update s u t _ _ => exact sorted_sortByDateDesc _
  | delete s u ids _ ih => exact List.Pairwise.sublist (List.filter_sublist _) ih

/-! ## Claims -/

/-- C1 (amended): at any point reachable by a sequence of
`addTransaction`, `updateTransaction` and `deleteTransactionsByIds` calls
in which every added transaction is recorded by the (single) current user
and generated ids are fresh, the vault's count at every configured
denomination equals the signed sum, over all stored cash transactions, of
that denomination's breakdown count (`+` for credits, `-` for debits).
Without the ownership restriction the claim fails, because
`deleteTransactionsByIds` and `updateTransaction` mutate the unfiltered
store while computing vault impacts only from the user-filtered view (see
the counterexample). -/
theorem vault_eq_signedSum_of_reachableOwned (u : String) (s : LedgerState)
    (h : ReachableOwned u s) (d : Denom) (hd : d ∈ DENOMINATIONS) :
    s.vault d = signedSum s.allTransactions d :=
  (ownedInv_of_reachableOwned u s h).2.2 d hd

/-- C1 counterexample: a cash credit of `{500: 1}` recorded by "other" is
added and then deleted by id while the current user is "u": the record
leaves the store but its vault impact is never reverted, so the vault
count at 500 no longer equals the signed sum over the store. -/
theorem vault_signedSum_cross_user_delete_cex :
    Reachable crossUserDeleteState ∧ 500 ∈ DENOMINATIONS ∧
      crossUserDeleteState.vault 500 ≠
        signedSum crossUserDeleteState.allTransactions 500 := by
  refine ⟨?_, by decide, by decide⟩
  exact Reachable.delete _ _ _
    (Reachable.add _ _ _ _ (Reachable.load 0 .absent .absent))

/-- C1 witness: the three-step cash sequence owned by "u" satisfies the
invariant at denomination 500. -/
theorem vault_eq_signedSum_witness :
    ReachableOwned "u" endState3 ∧ 500 ∈ DENOMINATIONS ∧
      endState3.vault 500 = signedSum endState3.allTransactions 500 := by
  have hr : ReachableOwned "u" endState3 :=
    ReachableOwned.add _ _ _ _
      (ReachableOwned.add _ _ _ _
        (ReachableOwned.add _ _ _ _ ReachableOwned.init rfl (by decide))
        rfl (by decide))
      rfl (by decide)
  exact ⟨hr, by decide,
    vault_eq_signedSum_of_reachableOwned "u" endState3 hr 500 (by decide)⟩

/-- C2 (confirmed): starting from a zero vault, adding a cash credit with
breakdown `{500: 1}` gives `vault[500] = 1`; a cash debit with the same
breakdown gives `0`; a second such debit gives `-1` — the count is not
clamped and goes negative. -/
theorem endToEnd_vault_counts :
    endState1.vault 500 = 1 ∧ endState2.vault 500 = 0 ∧
      endState3.vault 500 = -1 := by decide

/-- C3 (confirmed): updating a currently-visible transaction with a record
identical to the stored one leaves the vault unchanged — the revert-old
phase and the apply-new phase cancel exactly (ids are assumed pairwise
distinct, as generated). -/
theorem update_identical_record_fixes_vault (s : LedgerState)
    (u : Option String) (tx : Transaction)
    (hnd : (s.allTransactions.map Transaction.id).Nodup)
    (htx : tx ∈ visibleList s u) :
    (updateTransaction s u tx).vault = s.vault := by
  have hndv : ((visibleList s u).map Transaction.id).Nodup :=
    List.Nodup.sublist ((List.filter_sublist _).map Transaction.id) hnd
  have hfind : (visibleList s u).find? (fun a => decide (a.id = tx.id)) =
      some tx := find?_id_of_nodup _ tx hndv htx
  have hv : (updateTransaction s u tx).vault =
      (if tx.paymentMethod = PayMethod.cash then
        applyBreakdownChecked (txSign tx.type)
          (if tx.paymentMethod = PayMethod.cash then
            applyBreakdownChecked (-txSign tx.type) s.vault tx.breakdown
          else s.vault) tx.breakdown
      else
        (if tx.paymentMethod = PayMethod.cash then
          applyBreakdownChecked (-txSign tx.type) s.vault tx.breakdown
        else s.vault)) := by
    simp only [updateTransaction, hfind]
  funext d
  rw [hv]
  by_cases hc : tx.paymentMethod = PayMethod.cash
  · rw [if_pos hc, if_pos hc]
    by_cases hd : d ∈ DENOMINATIONS
    · rw [applyBreakdownChecked_apply _ _ _ _ hd,
        applyBreakdownChecked_apply _ _ _ _ hd]
      ring
    · rw [applyBreakdownChecked_notmem _ _ _ _ hd,
        applyBreakdownChecked_notmem _ _ _ _ hd]
  · rw [if_neg hc, if_neg hc]

/-- C3 witness: a one-transaction store owned by "u", updated with the
stored record itself. -/
theorem update_identical_record_fixes_vault_witness :
    (oneTxState.allTransactions.map Transaction.id).Nodup ∧
      storedTx ∈ visibleList oneTxState (some "u") ∧
      (updateTransaction oneTxState (some "u") storedTx).vault =
        oneTxState.vault :=
  ⟨by decide, by decide,
    update_identical_record_fixes_vault oneTxState (some "u") storedTx
      (by decide) (by decide)⟩

/-- C4 (confirmed): deleting a currently-visible transaction by id and
re-adding an equivalent record (same type, payment method and breakdown)
restores the vault exactly: the delete reverts precisely the transaction's
effect and the add re-applies it. -/
theorem delete_then_add_restores_vault (s : LedgerState) (u : Option String)
    (tx : Transaction) (data : TxData) (freshId : String) (now : Nat)
    (hnd : (s.allTransactions.map Transaction.id).Nodup)
    (htx : tx ∈ visibleList s u)
    (h1 : data.type = tx.type) (h2 : data.paymentMethod = tx.paymentMethod)
    (h3 : data.breakdown = tx.breakdown) :
    (addTransaction (deleteTransactionsByIds s u [tx.id]) data freshId
        now).vault = s.vault := by
  have hndv : ((visibleList s u).map Transaction.id).Nodup :=
    List.Nodup.sublist ((List.filter_sublist _).map Transaction.id) hnd
  have hsingle :
      (visibleList s u).filter (fun a => decide (a.id ∈ [tx.id])) = [tx] :=
    filter_id_singleton_of_nodup _ tx hndv htx _ (fun a => by simp)
  have hdel : ∀ d, (deleteTransactionsByIds s u [tx.id]).vault d =
      s.vault d - txEffect tx d := by
    intro d
    have h0 : (deleteTransactionsByIds s u [tx.id]).vault =
        revertAll
          ((visibleList s u).filter fun a => decide (a.id ∈ [tx.id]))
          s.vault := rfl
    rw [h0, hsingle, revertAll_apply]
    simp [signedSum]
  funext d
  rw [addTransaction_vault_apply, hdel, h1, h2, h3]
  by_cases hc : tx.paymentMethod = PayMethod.cash <;>
    simp [txEffect, hc]

/-- C4 witness: deleting the only stored transaction of "u" and re-adding
an equivalent cash credit restores the vault. -/
theorem delete_then_add_restores_vault_witness :
    (oneTxState.allTransactions.map Transaction.id).Nodup ∧
      storedTx ∈ visibleList oneTxState (some "u") ∧
      (addTransaction (deleteTransactionsByIds oneTxState (some "u")
          [storedTx.id]) (cashData .credit "u" [(500, 1)]) "z" 9).vault =
        oneTxState.vault :=
  ⟨by decide, by decide,
    delete_then_add_restores_vault oneTxState (some "u") storedTx
      (cashData .credit "u" [(500, 1)]) "z" 9 (by decide) (by decide)
      rfl rfl rfl⟩

/-- C5 (confirmed): migrating a persisted cash transaction whose raw
breakdown is `{100: -5, 50: "x", 20: 3.7}` yields the breakdown
`{20: 3}` only; in general a denomination key survives sanitization
exactly when its raw count is a finite number `≥ 0`, and then carries the
floored count — negative, non-finite and non-number counts are omitted,
not zeroed. -/
theorem sanitizeBreakdown_spec :
    ((migrateTx 0 (RawEntry.obj rawMixedTx)).map Transaction.breakdown) =
        some [(20, 3)] ∧
      ∀ (raw : Denom → RawVal) (d : Denom) (c : Int),
        (d, c) ∈ sanitizeBreakdown raw ↔
          d ∈ DENOMINATIONS ∧ ∃ x : ℚ, raw d = .num x ∧ 0 ≤ x ∧ c = ⌊x⌋ := by
  constructor
  · have h37 : (⌊(37 / 10 : ℚ)⌋ : Int) = 3 := by
      rw [Rat.floor_def]; norm_num
    have h1 : sanitizeBreakdown rawMixedBreakdown = [(20, 3)] := by
      norm_num [sanitizeBreakdown, DENOMINATIONS, rawMixedBreakdown, h37]
    simp [migrateTx, rawMixedTx, h1]
  · exact mem_sanitizeBreakdown

/-- C6 (confirmed): if parsing either persisted blob throws, the load
effect (whose `catch` swallows the exception: `loadEffect` is total)
resets both the transaction list and the vault — even the blob that was
not corrupted — and clears both persisted keys. -/
theorem loadEffect_full_reset_on_throw (now : Nat) (txB : Blob ParsedTxBlob)
    (vB : Blob ParsedVaultBlob) (h : txB = Blob.throws ∨ vB = Blob.throws) :
    loadEffect now txB vB = resetResult ∧ resetResult.transactions = [] ∧
      resetResult.vault = initializeVault ∧
      resetResult.txKeyCleared = true ∧
      resetResult.vaultKeyCleared = true := by
  refine ⟨?_, rfl, rfl, rfl, rfl⟩
  rcases h with rfl | rfl
  · rfl
  · cases txB with
    | throws => rfl
    | absent => rfl
    | ok p => cases p <;> rfl

/-- C6 witness: a healthy transactions blob paired with a vault blob whose
parse throws still produces the full reset. -/
theorem loadEffect_full_reset_on_throw_witness :
    ((Blob.ok (ParsedTxBlob.arr [RawEntry.obj rawMixedTx]) :
        Blob ParsedTxBlob) = Blob.throws ∨
      (Blob.throws : Blob ParsedVaultBlob) = Blob.throws) ∧
      loadEffect 0 (Blob.ok (ParsedTxBlob.arr [RawEntry.obj rawMixedTx]))
          Blob.throws = resetResult :=
  ⟨Or.inr rfl,
    (loadEffect_full_reset_on_throw 0
      (Blob.ok (ParsedTxBlob.arr [RawEntry.obj rawMixedTx])) Blob.throws
      (Or.inr rfl)).1⟩

/-- C7 (confirmed): when `updateTransaction` is called with an id not
found in the currently-visible list the vault is left unchanged and the
error branch is logged (no exception reaches the caller — the operation is
a total function); the list-replace step runs regardless and can still
substitute the record when the id exists in the broader unfiltered store
(see the witness). -/
theorem update_notfound_vault_unchanged (s : LedgerState)
    (u : Option String) (t : Transaction)
    (h : (visibleList s u).find? (fun a => decide (a.id = t.id)) = none) :
    (updateTransaction s u t).vault = s.vault ∧
      updateLogsError s u t = true := by
  constructor
  · simp only [updateTransaction, h]
  · simp [updateLogsError, h]

/-- C7 witness: the only stored record belongs to "other", so "u"'s
update finds nothing in the visible list and the vault is untouched and
the error is logged; the replace step nevertheless installs the new
record in the unfiltered store. -/
theorem update_notfound_vault_unchanged_witness :
    ((visibleList foreignTxState (some "u")).find?
        (fun a => decide (a.id = updatePayload.id)) = none) ∧
      ((updateTransaction foreignTxState (some "u") updatePayload).vault =
          foreignTxState.vault ∧
        updateLogsError foreignTxState (some "u") updatePayload = true) ∧
      updatePayload ∈
        (updateTransaction foreignTxState (some "u")
            updatePayload).allTransactions ∧
      updatePayload ∉ foreignTxState.allTransactions :=
  ⟨by decide,
    update_notfound_vault_unchanged foreignTxState (some "u") updatePayload
      (by decide), by decide, by decide⟩

/-- C8 (amended): `updateTransaction` replaces the stored record wholesale
with the caller's record, keyed by id.  The stored id set is preserved (the
replacement carries the same id), but the date is preserved only when the
caller's record carries the stored record's date — the code does not
protect `date` itself (see the counterexample). -/
theorem update_preserves_id_and_conditional_date (s : LedgerState)
    (u : Option String) (t tx : Transaction)
    (htx : tx ∈ s.allTransactions) :
    ((updateTransaction s u t).allTransactions.map Transaction.id).Perm
        (s.allTransactions.map Transaction.id) ∧
      ∃ tx' ∈ (updateTransaction s u t).allTransactions,
        tx'.id = tx.id ∧
          ((tx.id = t.id → t.date = tx.date) → tx'.date = tx.date) := by
  constructor
  · have h1 :=
      (sortByDateDesc_perm (replaceById t s.allTransactions)).map
        Transaction.id
    rw [replaceById_map_id] at h1
    exact h1
  · refine ⟨if tx.id = t.id then t else tx, ?_, ?_, ?_⟩
    · have hm : (if tx.id = t.id then t else tx) ∈
          replaceById t s.allTransactions := List.mem_map_of_mem _ htx
      exact (sortByDateDesc_perm _).mem_iff.mpr hm
    · by_cases h : tx.id = t.id
      · rw [if_pos h, h]
      · rw [if_neg h]
    · intro hdate
      by_cases h : tx.id = t.id
      · rw [if_pos h]; exact hdate h
      · rw [if_neg h]

/-- C8 counterexample: updating the stored record (id "a", date 5) with
the same record carrying date 99 leaves the store holding date 99 — the
`date` field is altered by `updateTransaction` when the caller's record
changes it. -/
theorem update_alters_date_cex :
    (updateTransaction oneTxState (some "u") movedDateTx).allTransactions =
        [movedDateTx] ∧
      movedDateTx.id = storedTx.id ∧ storedTx.date = 5 ∧
      movedDateTx.date = 99 ∧ movedDateTx.date ≠ storedTx.date := by decide

/-- C8 witness: updating with a payload that carries the stored date keeps
both id and date of the stored record. -/
theorem update_preserves_id_and_conditional_date_witness :
    storedTx ∈ oneTxState.allTransactions ∧
      (((updateTransaction oneTxState (some "u")
            updatePayload).allTransactions.map Transaction.id).Perm
          (oneTxState.allTransactions.map Transaction.id) ∧
        ∃ tx' ∈ (updateTransaction oneTxState (some "u")
            updatePayload).allTransactions,
          tx'.id = storedTx.id ∧
            ((storedTx.id = updatePayload.id →
                updatePayload.date = storedTx.date) →
              tx'.date = storedTx.date)) :=
  ⟨by decide,
    update_preserves_id_and_conditional_date oneTxState (some "u")
      updatePayload storedTx (by decide)⟩

/-- C9 (confirmed): after the initial load/sanitization and after every
`addTransaction`, `updateTransaction` and `deleteTransactionsByIds`, the
transaction list exposed to consumers (the user-filtered view) is sorted
by date descending. -/
theorem visible_sorted_of_reachable (s : LedgerState) (h : Reachable s)
    (u : Option String) : (visibleList s u).Sorted dateDesc :=
  List.Pairwise.sublist (List.filter_sublist _) (allSorted_of_reachable s h)

/-- C9 witness: a load followed by an `addTransaction` yields a sorted
visible list. -/
theorem visible_sorted_of_reachable_witness :
    Reachable (addTransaction (loadState (loadEffect 0 Blob.absent
        Blob.absent)) (cashData .credit "u" [(500, 1)]) "a" 1) ∧
      (visibleList (addTransaction (loadState (loadEffect 0 Blob.absent
          Blob.absent)) (cashData .credit "u" [(500, 1)]) "a" 1)
        (some "u")).Sorted dateDesc := by
  have hr : Reachable (addTransaction (loadState (loadEffect 0 Blob.absent
      Blob.absent)) (cashData .credit "u" [(500, 1)]) "a" 1) :=
    Reachable.add _ _ _ _ (Reachable.load 0 Blob.absent Blob.absent)
  exact ⟨hr, visible_sorted_of_reachable _ hr (some "u")⟩

/-- C10 (confirmed): the persist/reload round trip is not the identity on
reachable vaults: vault sanitization accepts only non-negative finite
counts, so any configured denomination whose count went negative (which
debits allow) reloads as 0, and the reloaded vault differs from the
persisted one. -/
theorem reload_zeroes_negative_count (v : Vault) (d : Denom)
    (hd : d ∈ DENOMINATIONS) (hneg : v d < 0) :
    reloadVault v d = 0 ∧ reloadVault v ≠ v := by
  have h0 : reloadVault v d = 0 := by
    have hx : ¬(0 ≤ (v d : ℚ)) := by
      rw [not_le]
      exact_mod_cast hneg
    simp only [reloadVault, sanitizeVault, if_pos hd]
    simp [hx]
  refine ⟨h0, fun heq => ?_⟩
  have hc := congrFun heq d
  rw [h0] at hc
  omega

/-- C10 witness: a vault holding `-1` notes of 500 reloads as `0` there
and hence differs from what was persisted. -/
theorem reload_zeroes_negative_count_witness :
    500 ∈ DENOMINATIONS ∧ negVault 500 < 0 ∧
      (reloadVault negVault 500 = 0 ∧ reloadVault negVault ≠ negVault) :=
  ⟨by decide, by decide,
    reload_zeroes_negative_count negVault 500 (by decide) (by decide)⟩

end Ali
